import Mathlib

/-!
Shallow embedding of the silero-vad `utils.py` streaming VAD engine.

Probabilities and audio samples are modelled as rationals (the code's float
comparisons against thresholds become exact comparisons in `ℚ`), Python lists
and tensors as Lean lists, the `collections.deque` with a maximum length as a
list with bounded push, and Python `dict`s holding a pending segment as an
`Option` start offset.  The external classifier (`run_function` / `model`) is
an opaque collaborator: every embedded function takes the classifier's output
(the `outs[:, 1]` probability column, or the arg-max predictions) as an input.
Fallible operations (`torch.cat` on an empty list, exhausted initial loading,
a raising classifier call) are modelled with `Option`.
-/

namespace SileroVad

/-- Python `range(start, stop, step)` for a positive step width (the code only
uses positive steps; Python raises on step 0, modelled as the empty list). -/
def pyRange (start stop step : ℕ) : List ℕ :=
  if 0 < step then List.range' start ((stop - start + step - 1) / step) step else []

/-- Append on the right of a bounded deque of capacity `n`, evicting the oldest
element on overflow — `collections.deque` with a maximum length of `n`.
For `n = 0` the deque stays empty, as in Python. -/
def pushMax (n : ℕ) (buf : List ℚ) (p : ℚ) : List ℚ :=
  let b := buf ++ [p]
  b.drop (b.length - n)

/-- `sum(buffer) / len(buffer)` after pushing `p`: the trailing average of the
last at-most-`n` probabilities. -/
def trailingAvg (n : ℕ) (buf : List ℚ) (p : ℚ) : ℚ :=
  (pushMax n buf p).sum / ((pushMax n buf p).length : ℚ)

/-- Edge events emitted by the hysteresis detector: each `Edge` mirrors one
write of `'start'`/`'end'` into the `current_speech` dict.  Offsets are in
`ℤ` because the streaming offset formula can go negative. -/
inductive Edge where
  | start (off : ℤ)
  | stop (off : ℤ)
deriving DecidableEq, Repr

def Edge.isStart : Edge → Bool
  | .start _ => true
  | .stop _ => false

/-- The kinds of the emitted edges strictly alternate (no two consecutive
starts, no two consecutive ends). -/
def kindsAlt (es : List Edge) : Prop :=
  List.Chain' (fun a b => a.isStart ≠ b.isStart) es

instance (es : List Edge) : Decidable (kindsAlt es) :=
  inferInstanceAs (Decidable (List.Chain' _ es))

/-- Whether the most recently emitted edge is a `start` (false for no edges). -/
def lastIsStart (es : List Edge) : Bool :=
  (es.getLast?.map Edge.isStart).getD false

/-- Detector trace invariant: edges alternate and the last edge is a `start`
exactly when the detector is currently triggered. -/
def EdgeInv (es : List Edge) (trig : Bool) : Prop :=
  kindsAlt es ∧ lastIsStart es = trig

instance (es : List Edge) (t : Bool) : Decidable (EdgeInv es t) :=
  inferInstanceAs (Decidable (_ ∧ _))

/-- A detected segment: the Python dict `{'start': ..., 'end': ...}`.
(`end` is a Lean keyword, so the second field is called `stop`.) -/
structure Segment where
  start : ℕ
  stop : ℕ
deriving DecidableEq, Repr

/-- Loop state of the batch detection loop of `get_speech_ts`
(utils.py lines 85–101).  `current` is the pending `current_speech` dict:
between iterations it holds at most the `'start'` key.  `edges` is the
instrumented trace of dict writes. -/
structure BatchState where
  buffer : List ℚ
  triggered : Bool
  current : Option ℕ
  speeches : List Segment
  edges : List Edge
deriving DecidableEq, Repr

def initBatch : BatchState := ⟨[], false, none, [], []⟩

/-- One iteration of the `get_speech_ts` detection loop (utils.py 91–101):
push the probability into the bounded buffer, then evaluate the start rule and
afterwards (on the updated state, as in the source) the end rule.  A closed
segment is kept only when `end - start > 10000`. -/
def detectStep (trig neg : ℚ) (numSteps step : ℕ) (s : BatchState) (i : ℕ) (p : ℚ) :
    BatchState :=
  let buffer := pushMax numSteps s.buffer p
  let avg := buffer.sum / (buffer.length : ℚ)
  let s1 : BatchState :=
    if trig ≤ avg ∧ s.triggered = false then
      { s with
        buffer := buffer, triggered := true,
        current := some (step * (i - numSteps)),
        edges := s.edges ++ [Edge.start ((step * (i - numSteps) : ℕ) : ℤ)] }
    else { s with buffer := buffer }
  if avg < neg ∧ s1.triggered = true then
    { s1 with
      speeches :=
        if 10000 < step * i - s1.current.getD 0 then
          s1.speeches ++ [⟨s1.current.getD 0, step * i⟩]
        else s1.speeches,
      current := none, triggered := false,
      edges := s1.edges ++ [Edge.stop ((step * i : ℕ) : ℤ)] }
  else s1

/-- The full detection loop of `get_speech_ts` over the probability column
`outs[:, 1]` produced by the classifier. -/
def getSpeechLoop (trig neg : ℚ) (numSteps step : ℕ) (probs : List ℚ) : BatchState :=
  probs.enum.foldl (fun s ip => detectStep trig neg numSteps step s ip.1 ip.2) initBatch

/-- The loop followed by the end-of-signal flush (utils.py 102–104): a pending
unterminated segment is closed at `len(wav)` and appended unconditionally. -/
def getSpeechFinal (trig neg : ℚ) (numSteps step : ℕ) (probs : List ℚ) (wavLen : ℕ) :
    BatchState :=
  let s := getSpeechLoop trig neg numSteps step probs
  match s.current with
  | some s0 =>
    { s with
      speeches := s.speeches ++ [⟨s0, wavLen⟩],
      edges := s.edges ++ [Edge.stop (wavLen : ℤ)] }
  | none => s

/-- `get_speech_ts` (utils.py 52–105), given the classifier's probability
column for the windowed signal and the signal length in samples. -/
def get_speech_ts (probs : List ℚ) (wavLen : ℕ) (trig neg : ℚ) (numSteps step : ℕ) :
    List Segment :=
  (getSpeechFinal trig neg numSteps step probs wavLen).speeches

/-- The `VADiterator` state (utils.py 141–199).  `edges` is the instrumented
per-stream trace of `'start'`/`'end'` dict writes; it is cleared by `refresh`
together with the rest of the per-stream state. -/
structure VADiterator where
  num_samples : ℕ
  num_steps : ℕ
  step : ℕ
  prev : List ℚ
  last : Bool
  triggered : Bool
  buffer : List ℚ
  num_frames : ℕ
  trig_sum : ℚ
  neg_trig_sum : ℚ
  current_name : String
  edges : List Edge
deriving DecidableEq, Repr

/-- `VADiterator.__init__` (utils.py 142–158); `step = num_samples / num_steps`
(the constructor asserts divisibility). -/
def VADiterator.init (trig neg : ℚ) (numSteps numSamples : ℕ) : VADiterator :=
  { num_samples := numSamples, num_steps := numSteps,
    step := numSamples / numSteps,
    prev := List.replicate numSamples 0, last := false, triggered := false,
    buffer := [], num_frames := 0, trig_sum := trig, neg_trig_sum := neg,
    current_name := "", edges := [] }

/-- `VADiterator.refresh` (utils.py 160–165). -/
def VADiterator.refresh (it : VADiterator) : VADiterator :=
  { it with
    prev := List.replicate it.num_samples 0, last := false,
    triggered := false, buffer := [], num_frames := 0, edges := [] }

/-- `VADiterator.prepare_batch` (utils.py 167–182): optional reset on a stream
name change, frame accounting, right-zero-padding of a short (final) chunk,
then the overlapping sub-windows of `prev ++ chunk` at offsets
`step, 2*step, …, num_samples`.  Returns the mutated iterator and the batch.
(The source asserts `len(wav_chunk) ≤ num_samples`.) -/
def VADiterator.prepare_batch (it : VADiterator) (wav_chunk : List ℚ)
    (name : Option String) : VADiterator × List (List ℚ) :=
  let it :=
    match name with
    | some n => if n ≠ it.current_name then { it.refresh with current_name := n } else it
    | none => it
  let it := { it with num_frames := it.num_frames + wav_chunk.length }
  let chunk :=
    if wav_chunk.length < it.num_samples then
      wav_chunk ++ List.replicate (it.num_samples - wav_chunk.length) 0
    else wav_chunk
  let it := if wav_chunk.length < it.num_samples then { it with last := true } else it
  let stacked := it.prev ++ chunk
  let it := { it with prev := chunk }
  (it, (pyRange it.step (it.num_samples + 1) it.step).map
    (fun i => (stacked.drop i).take it.num_samples))

/-- Insert into a Python dict modelled as an insertion-ordered association
list: an existing key keeps its position and gets the new value. -/
def dictInsert (d : List (ℤ × String)) (k : ℤ) (v : String) : List (ℤ × String) :=
  if d.any (fun q => q.1 == k) then d.map (fun q => if q.1 == k then (k, v) else q)
  else d ++ [(k, v)]

/-- The streaming edge offset `num_frames - (num_steps - i) * step`
(utils.py 191/193), computed in `ℤ` as Python does. -/
def vadOff (it : VADiterator) (i : ℕ) : ℤ :=
  (it.num_frames : ℤ) - ((it.num_steps : ℤ) - (i : ℤ)) * (it.step : ℤ)

/-- One iteration of the `VADiterator.state` loop (utils.py 187–194): same
hysteresis rules as the batch loop, with the streaming offset formula
`num_frames - (num_steps - i) * step` (which may be negative). -/
def vadStateStep (it : VADiterator) (d : List (ℤ × String)) (i : ℕ) (p : ℚ) :
    VADiterator × List (ℤ × String) :=
  let buffer := pushMax it.num_steps it.buffer p
  let avg := buffer.sum / ((buffer.length : ℚ))
  let off : ℤ := (it.num_frames : ℤ) - ((it.num_steps : ℤ) - (i : ℤ)) * (it.step : ℤ)
  let it := { it with buffer := buffer }
  let r :=
    if it.trig_sum ≤ avg ∧ it.triggered = false then
      ({ it with triggered := true, edges := it.edges ++ [Edge.start off] },
        dictInsert d off "start")
    else (it, d)
  if avg < it.neg_trig_sum ∧ r.1.triggered = true then
    ({ r.1 with triggered := false, edges := r.1.edges ++ [Edge.stop off] },
      dictInsert r.2 off "end")
  else r

/-- The `VADiterator.state` loop plus the end-of-stream flush (utils.py
187–196), before the trailing `refresh`. -/
def VADiterator.stateCore (it : VADiterator) (speech_probs : List ℚ) :
    VADiterator × List (ℤ × String) :=
  let r := speech_probs.enum.foldl
    (fun (acc : VADiterator × List (ℤ × String)) ip => vadStateStep acc.1 acc.2 ip.1 ip.2)
    (it, [])
  if r.1.triggered && r.1.last then
    ({ r.1 with edges := r.1.edges ++ [Edge.stop (r.1.num_frames : ℤ)] },
      dictInsert r.2 ((r.1.num_frames : ℤ)) "end")
  else r

/-- `VADiterator.state` (utils.py 184–199), given the probability column
`model_out[:, 1]`: returns the mutated iterator, the per-call dict of edge
writes, and the current stream name. -/
def VADiterator.state (it : VADiterator) (speech_probs : List ℚ) :
    VADiterator × List (ℤ × String) × String :=
  let r := it.stateCore speech_probs
  (if r.1.last then r.1.refresh else r.1, r.2, r.1.current_name)

/-- The chunk list of one audio source (utils.py 237/251): slices of the
signal at stride `num_samples`, each tagged with the source name. -/
def wavChunks (numSamples : ℕ) (name : String) (wav : List ℚ) :
    List (List ℚ × String) :=
  (pyRange 0 wav.length numSamples).map (fun i => ((wav.drop i).take numSamples, name))

/-- One multiplexed slot of `stream_imitator`: either a live iterator over the
remaining chunks of its current signal, or the infinite `repeat` filler
`(zeros, 'junk')`. -/
inductive SlotIter where
  | real (chunks : List (List ℚ × String))
  | filler
deriving DecidableEq, Repr

def SlotIter.isReal : SlotIter → Bool
  | .real _ => true
  | .filler => false

/-- Number of still-live (non-filler) slots — the `good_iters` counter. -/
def realCount (slots : List SlotIter) : ℕ :=
  (slots.filter SlotIter.isReal).length

def slotChunks : SlotIter → ℕ
  | .real cs => cs.length
  | .filler => 0

/-- Total number of windows still queued behind the running slots. -/
def queueChunks (ns : ℕ) (q : List (String × List ℚ)) : ℕ :=
  (q.map (fun a => (wavChunks ns a.1 a.2).length)).sum

/-- Advance one slot (the `try`/`except` ladder of utils.py 243–258): take the
next chunk; on exhaustion load the next queued signal; if none remains (or the
loaded signal yields no chunk) the slot dies: it switches to filler and emits
`(zeros, 'junk')`.  Returns the value, the new slot, the new queue, and
whether the slot died in this step. -/
def processSlot (ns : ℕ) (q : List (String × List ℚ)) :
    SlotIter → (List ℚ × String) × SlotIter × List (String × List ℚ) × Bool
  | .filler => ((List.replicate ns 0, "junk"), .filler, q, false)
  | .real (c :: rest) => (c, .real rest, q, false)
  | .real [] =>
    match q with
    | [] => ((List.replicate ns 0, "junk"), .filler, [], true)
    | a :: qrest =>
      match wavChunks ns a.1 a.2 with
      | [] => ((List.replicate ns 0, "junk"), .filler, qrest, true)
      | c :: rest => (c, .real rest, qrest, false)

/-- Collect one round of values across the slots (the `for i, it in
enumerate(iterators)` body): `good` is the `good_iters` counter on entry;
`none` models the mid-round `return` when a death drives the counter to 0
(the partial round is discarded, exactly as in the source). -/
def roundGo (ns : ℕ) (q : List (String × List ℚ)) (slots : List SlotIter) (good : ℕ) :
    Option (List (List ℚ × String) × List SlotIter × List (String × List ℚ)) :=
  match slots with
  | [] => some ([], [], q)
  | s :: rest =>
    match processSlot ns q s with
    | (v, s', q', died) =>
      cond died
        (if good - 1 = 0 then none
         else
           match roundGo ns q' rest (good - 1) with
           | none => none
           | some (vs, slots', q2) => some (v :: vs, s' :: slots', q2))
        (match roundGo ns q' rest good with
         | none => none
         | some (vs, slots', q2) => some (v :: vs, s' :: slots', q2))

/-- The `while True` loop of `stream_imitator` (utils.py 241–260), with an
explicit iteration budget `fuel`: each completed round is yielded, and the
loop returns (yielding nothing further) when a slot death drives the live
counter to zero.  A sufficient budget makes the result independent of `fuel`
(the termination theorem below); with zero slots the Python loop would yield
empty rounds forever, which no finite budget reaches. -/
def runRoundsFuel (ns : ℕ) :
    ℕ → List (String × List ℚ) → List SlotIter → List (List (List ℚ × String))
  | 0, _, _ => []
  | fuel + 1, q, slots =>
    match roundGo ns q slots (realCount slots) with
    | none => []
    | some (vs, slots', q') => vs :: runRoundsFuel ns fuel q' slots'

/-- Total work measure of a scheduler state: every completed round with a
live slot strictly decreases it. -/
def schedMeasure (ns : ℕ) (q : List (String × List ℚ)) (slots : List SlotIter) : ℕ :=
  queueChunks ns q + (slots.map slotChunks).sum + realCount slots

/-- The rounds of the `stream_imitator` loop: the fuel is the work measure,
which the termination theorem shows to be a sufficient budget. -/
def runRounds (ns : ℕ) (q : List (String × List ℚ)) (slots : List SlotIter) :
    List (List (List ℚ × String)) :=
  runRoundsFuel ns (schedMeasure ns q slots) q slots

/-- `stream_imitator` (utils.py 227–260): the initial loading dequeues
`audios_in_stream` signals (propagating `StopIteration`, modelled as `none`,
when fewer are queued), then the multiplexed round loop runs.  Signals are
passed as (name, decoded samples) pairs; `read_audio` is external. -/
def stream_imitator (ns : ℕ) (audios : List (String × List ℚ)) (K : ℕ) :
    Option (List (List (List ℚ × String))) :=
  if audios.length < K then none
  else some (runRounds ns (audios.drop K)
    ((audios.take K).map (fun a => SlotIter.real (wavChunks ns a.1 a.2))))

/-- Millisecond timestamp of an audio frame index in `get_number_ts`:
`int(i * hop_length / (sample_rate / 1000))` with Python's true division and
truncation (the operands are non-negative, so truncation is flooring). -/
def msAt (hop_length sample_rate i : ℕ) : ℕ :=
  (((i * hop_length : ℚ) / ((sample_rate : ℚ) / 1000)).floor).toNat

/-- `get_number_ts` (utils.py 108–138), given the per-frame arg-max class
predictions of the classifier.  The input signal is only used through
`torch.unsqueeze(wav, dim=0)`, after which `len(wav)` is the leading tensor
dimension, i.e. `1` — which is what the trailing flush divides (utils.py 136);
the original sample count is not used at all, so it is not a parameter. -/
def get_number_ts (perframe_preds : List ℕ)
    (model_stride hop_length sample_rate : ℕ) : List Segment :=
  let extended_preds := perframe_preds.flatMap (fun p => List.replicate model_stride p)
  let fin := extended_preds.enum.foldl
    (fun (st : Bool × Option ℕ × List Segment) ip =>
      match ip.2 with
      | 1 => if st.1 then st else (true, some (msAt hop_length sample_rate ip.1), st.2.2)
      | 0 =>
        if st.1 then
          (false, none, st.2.2 ++ [⟨st.2.1.getD 0, msAt hop_length sample_rate ip.1⟩])
        else st
      | _ => st)
    (false, none, [])
  match fin.2.1 with
  | some s => fin.2.2 ++ [⟨s, (((1 : ℚ) / ((sample_rate : ℚ) / 1000)).floor).toNat⟩]
  | none => fin.2.2

/-- `torch.cat` raises on an empty list of tensors. -/
def torch_cat (chunks : List (List ℚ)) : Option (List ℚ) :=
  if chunks.isEmpty then none else some chunks.flatten

/-- `collect_chunks` (utils.py 288–293). -/
def collect_chunks (tss : List Segment) (wav : List ℚ) : Option (List ℚ) :=
  torch_cat (tss.map (fun i => (wav.drop i.start).take (i.stop - i.start)))

/-- The loop of `drop_chunks` (utils.py 296–303), threading `cur_start`. -/
def drop_chunks_go (wav : List ℚ) : ℕ → List Segment → List (List ℚ)
  | _, [] => []
  | cur, i :: rest => ((wav.drop cur).take (i.start - cur)) :: drop_chunks_go wav i.stop rest

/-- `drop_chunks` (utils.py 296–303). -/
def drop_chunks (tss : List Segment) (wav : List ℚ) : Option (List ℚ) :=
  torch_cat (drop_chunks_go wav 0 tss)

/-- Segments sorted by start, pairwise non-overlapping, within the signal, and
starting no earlier than `cur` (the `cur_start` cursor of `drop_chunks`). -/
def ValidSegs (len : ℕ) : ℕ → List Segment → Prop
  | _, [] => True
  | cur, i :: rest => cur ≤ i.start ∧ i.start ≤ i.stop ∧ i.stop ≤ len ∧ ValidSegs len i.stop rest

instance (len cur : ℕ) (tss : List Segment) : Decidable (ValidSegs len cur tss) := by
  induction tss generalizing cur with
  | nil => exact isTrue trivial
  | cons i rest ih => exact @instDecidableAnd _ _ _ (@instDecidableAnd _ _ _
      (@instDecidableAnd _ _ _ (ih i.stop)))

/-- The `end` of the last segment, or `cur` when there is none. -/
def lastStop (cur : ℕ) (tss : List Segment) : ℕ :=
  ((tss.getLast?).map Segment.stop).getD cur

/-- Invariant of the batch detection loop: the detector is triggered exactly
when a pending start is recorded, and the edge trace alternates, ending in a
`start` exactly when triggered. -/
def BatchInv (s : BatchState) : Prop :=
  s.triggered = s.current.isSome ∧ EdgeInv s.edges s.triggered

instance (s : BatchState) : Decidable (BatchInv s) :=
  inferInstanceAs (Decidable (_ ∧ _))

/-- Edge-trace invariant of a `VADiterator`. -/
def VADInv (it : VADiterator) : Prop :=
  EdgeInv it.edges it.triggered

instance (it : VADiterator) : Decidable (VADInv it) :=
  inferInstanceAs (Decidable (EdgeInv _ _))


/-! ### Proofs

Mathlib marks the `Rat` field operations irreducible; re-enabling unfolding
lets `decide` evaluate the embedded functions on concrete rational inputs. -/

attribute [local semireducible] Rat.add Rat.mul Rat.sub Rat.inv

set_option maxRecDepth 8000

/-! ### Lemmas about the batch detection step -/

theorem detectStep_buffer (trig neg : ℚ) (nS st : ℕ) (s : BatchState) (i : ℕ) (p : ℚ) :
    (detectStep trig neg nS st s i p).buffer = pushMax nS s.buffer p := by
  simp only [detectStep]
  split_ifs <;> rfl

theorem detectStep_edges (trig neg : ℚ) (nS st : ℕ) (s : BatchState) (i : ℕ) (p : ℚ) :
    (detectStep trig neg nS st s i p).edges = s.edges
      ++ (if trig ≤ trailingAvg nS s.buffer p ∧ s.triggered = false
          then [Edge.start ((st * (i - nS) : ℕ) : ℤ)] else [])
      ++ (if trailingAvg nS s.buffer p < neg ∧
            (s.triggered = true ∨ (trig ≤ trailingAvg nS s.buffer p ∧ s.triggered = false))
          then [Edge.stop ((st * i : ℕ) : ℤ)] else []) := by
  simp only [detectStep, trailingAvg]
  by_cases ht : s.triggered = true <;>
    by_cases hsc : trig ≤ (pushMax nS s.buffer p).sum / ((pushMax nS s.buffer p).length : ℚ) <;>
      by_cases hav : (pushMax nS s.buffer p).sum / ((pushMax nS s.buffer p).length : ℚ) < neg <;>
        simp [ht, hsc, hav, Bool.not_eq_true, List.append_assoc]

theorem detectStep_triggered (trig neg : ℚ) (nS st : ℕ) (s : BatchState) (i : ℕ) (p : ℚ) :
    (detectStep trig neg nS st s i p).triggered =
      (if trailingAvg nS s.buffer p < neg ∧
            (s.triggered = true ∨ (trig ≤ trailingAvg nS s.buffer p ∧ s.triggered = false))
        then false
        else if trig ≤ trailingAvg nS s.buffer p ∧ s.triggered = false then true
        else s.triggered) := by
  simp only [detectStep, trailingAvg]
  by_cases ht : s.triggered = true <;>
    by_cases hsc : trig ≤ (pushMax nS s.buffer p).sum / ((pushMax nS s.buffer p).length : ℚ) <;>
      by_cases hav : (pushMax nS s.buffer p).sum / ((pushMax nS s.buffer p).length : ℚ) < neg <;>
        simp [ht, hsc, hav, Bool.not_eq_true]

theorem detectStep_current (trig neg : ℚ) (nS st : ℕ) (s : BatchState) (i : ℕ) (p : ℚ) :
    (detectStep trig neg nS st s i p).current =
      (if trailingAvg nS s.buffer p < neg ∧
            (s.triggered = true ∨ (trig ≤ trailingAvg nS s.buffer p ∧ s.triggered = false))
        then none
        else if trig ≤ trailingAvg nS s.buffer p ∧ s.triggered = false
        then some (st * (i - nS))
        else s.current) := by
  simp only [detectStep, trailingAvg]
  by_cases ht : s.triggered = true <;>
    by_cases hsc : trig ≤ (pushMax nS s.buffer p).sum / ((pushMax nS s.buffer p).length : ℚ) <;>
      by_cases hav : (pushMax nS s.buffer p).sum / ((pushMax nS s.buffer p).length : ℚ) < neg <;>
        simp [ht, hsc, hav, Bool.not_eq_true]

theorem detectStep_speeches (trig neg : ℚ) (nS st : ℕ) (s : BatchState) (i : ℕ) (p : ℚ) :
    (detectStep trig neg nS st s i p).speeches = s.speeches
      ++ (if (trailingAvg nS s.buffer p < neg ∧
              (s.triggered = true ∨ (trig ≤ trailingAvg nS s.buffer p ∧ s.triggered = false)))
            ∧ 10000 < st * i -
              (if trig ≤ trailingAvg nS s.buffer p ∧ s.triggered = false
               then st * (i - nS) else s.current.getD 0)
          then [⟨(if trig ≤ trailingAvg nS s.buffer p ∧ s.triggered = false
                  then st * (i - nS) else s.current.getD 0), st * i⟩]
          else []) := by
  simp only [detectStep, trailingAvg]
  by_cases ht : s.triggered = true <;>
    by_cases hsc : trig ≤ (pushMax nS s.buffer p).sum / ((pushMax nS s.buffer p).length : ℚ) <;>
      by_cases hav : (pushMax nS s.buffer p).sum / ((pushMax nS s.buffer p).length : ℚ) < neg <;>
        by_cases hkeep : (10000 : ℕ) < st * i - s.current.getD 0 <;>
          by_cases hkeep2 : (10000 : ℕ) < st * i - st * (i - nS) <;>
            simp [ht, hsc, hav, hkeep, hkeep2, Bool.not_eq_true]


/-! ### Edge-trace invariant lemmas -/

theorem kindsAlt_nil : kindsAlt [] := List.chain'_nil

theorem edgeInv_push_start (es : List Edge) (o : ℤ) (h : EdgeInv es false) :
    EdgeInv (es ++ [Edge.start o]) true := by
  obtain ⟨hc, hl⟩ := h
  constructor
  · rw [kindsAlt, List.chain'_append]
    refine ⟨hc, List.chain'_singleton _, ?_⟩
    intro x hx y hy
    simp only [List.head?, Option.mem_def, Option.some.injEq] at hy
    subst hy
    rw [Option.mem_def] at hx
    cases x with
    | start o2 => simp [lastIsStart, hx, Edge.isStart] at hl
    | stop o2 => simp [Edge.isStart]
  · simp [lastIsStart, List.getLast?_concat, Edge.isStart]

theorem edgeInv_push_stop (es : List Edge) (o : ℤ) (h : EdgeInv es true) :
    EdgeInv (es ++ [Edge.stop o]) false := by
  obtain ⟨hc, hl⟩ := h
  constructor
  · rw [kindsAlt, List.chain'_append]
    refine ⟨hc, List.chain'_singleton _, ?_⟩
    intro x hx y hy
    simp only [List.head?, Option.mem_def, Option.some.injEq] at hy
    subst hy
    rw [Option.mem_def] at hx
    cases x with
    | start o2 => simp [Edge.isStart]
    | stop o2 => simp [lastIsStart, hx, Edge.isStart] at hl
  · simp [lastIsStart, List.getLast?_concat, Edge.isStart]

theorem batchInv_init : BatchInv initBatch :=
  ⟨rfl, kindsAlt_nil, rfl⟩

theorem batchInv_step (trig neg : ℚ) (nS st : ℕ) (s : BatchState) (i : ℕ) (p : ℚ)
    (h : BatchInv s) : BatchInv (detectStep trig neg nS st s i p) := by
  obtain ⟨hcur, hinv⟩ := h
  have he := detectStep_edges trig neg nS st s i p
  have htr := detectStep_triggered trig neg nS st s i p
  have hcu := detectStep_current trig neg nS st s i p
  by_cases hec : trailingAvg nS s.buffer p < neg ∧
      (s.triggered = true ∨ (trig ≤ trailingAvg nS s.buffer p ∧ s.triggered = false))
  · rw [if_pos hec] at he htr hcu
    by_cases hsc : trig ≤ trailingAvg nS s.buffer p ∧ s.triggered = false
    · rw [if_pos hsc] at he
      refine ⟨by rw [htr, hcu]; rfl, ?_⟩
      rw [he, htr]
      exact edgeInv_push_stop _ _ (edgeInv_push_start _ _ (hsc.2 ▸ hinv))
    · rw [if_neg hsc, List.append_nil] at he
      have h2 : s.triggered = true := hec.2.resolve_right hsc
      refine ⟨by rw [htr, hcu]; rfl, ?_⟩
      rw [he, htr]
      exact edgeInv_push_stop _ _ (h2 ▸ hinv)
  · rw [if_neg hec] at he htr hcu
    rw [List.append_nil] at he
    by_cases hsc : trig ≤ trailingAvg nS s.buffer p ∧ s.triggered = false
    · rw [if_pos hsc] at he htr hcu
      refine ⟨by rw [htr, hcu]; rfl, ?_⟩
      rw [he, htr]
      exact edgeInv_push_start _ _ (hsc.2 ▸ hinv)
    · rw [if_neg hsc] at he htr hcu
      rw [List.append_nil] at he
      exact ⟨by rw [htr, hcu, hcur], by rw [he, htr]; exact hinv⟩

theorem batchInv_foldl (trig neg : ℚ) (nS st : ℕ) (l : List (ℕ × ℚ)) :
    ∀ s : BatchState, BatchInv s →
      BatchInv (l.foldl (fun s ip => detectStep trig neg nS st s ip.1 ip.2) s) := by
  induction l with
  | nil => exact fun s h => h
  | cons ip l ih =>
    intro s h
    exact ih _ (batchInv_step trig neg nS st s ip.1 ip.2 h)

theorem batchInv_loop (trig neg : ℚ) (nS st : ℕ) (probs : List ℚ) :
    BatchInv (getSpeechLoop trig neg nS st probs) :=
  batchInv_foldl trig neg nS st probs.enum initBatch batchInv_init


/-! ### The buffer holds the trailing at-most-`num_steps` probabilities -/

theorem foldl_pushMax (nS : ℕ) (l : List ℚ) :
    ∀ b : List ℚ, b.length ≤ nS →
      l.foldl (pushMax nS) b = (b ++ l).drop ((b ++ l).length - nS) := by
  induction l with
  | nil =>
    intro b hb
    simp [Nat.sub_eq_zero_of_le hb]
  | cons p l ih =>
    intro b hb
    have hd : pushMax nS b p = (b ++ [p]).drop (b.length + 1 - nS) := by
      simp [pushMax]
    have hlen : (pushMax nS b p).length ≤ nS := by
      rw [hd]
      simp only [List.length_drop, List.length_append, List.length_cons, List.length_nil]
      omega
    rw [List.foldl_cons, ih _ hlen]
    have hz : (b.length + 1 - nS) - (b ++ [p]).length = 0 := by
      simp only [List.length_append, List.length_cons, List.length_nil]
      omega
    have h1 : pushMax nS b p ++ l = ((b ++ [p]) ++ l).drop (b.length + 1 - nS) := by
      rw [List.drop_append_eq_append_drop, hz, List.drop_zero, hd]
    rw [h1, List.drop_drop]
    have h2 : (b ++ [p]) ++ l = b ++ p :: l := by simp
    rw [h2]
    congr 1
    simp only [List.length_drop, List.length_append, List.length_cons, List.length_nil]
    omega

theorem getSpeechLoop_buffer (trig neg : ℚ) (nS st : ℕ) (probs : List ℚ) :
    (getSpeechLoop trig neg nS st probs).buffer = probs.drop (probs.length - nS) := by
  have h1 : ∀ (l : List (ℕ × ℚ)) (s : BatchState),
      (l.foldl (fun s ip => detectStep trig neg nS st s ip.1 ip.2) s).buffer
        = l.foldl (fun b ip => pushMax nS b ip.2) s.buffer := by
    intro l
    induction l with
    | nil => intro s; rfl
    | cons ip l ih =>
      intro s
      rw [List.foldl_cons, List.foldl_cons, ih, detectStep_buffer]
  rw [getSpeechLoop, h1]
  have hib : initBatch.buffer = ([] : List ℚ) := rfl
  have h2 : probs.enum.foldl (fun b ip => pushMax nS b ip.2) ([] : List ℚ)
      = probs.foldl (pushMax nS) ([] : List ℚ) := by
    conv_rhs => rw [← List.enum_map_snd probs]
    rw [List.foldl_map]
  rw [hib, h2, foldl_pushMax nS probs [] (by simp)]
  simp


/-! ### Claim C1 -/

/-- C1: in the batch detection loop of `get_speech_ts`, for every state of the
detector, step index `i` and incoming probability: a start edge (at sample
offset `step * max(0, i - num_steps)`, which is `step * (i - numSteps)` in
truncated natural subtraction) is recorded exactly when the trailing average
of the last at-most-`num_steps` probabilities is `≥ trig_sum` and the detector
is not triggered, and then the detector becomes triggered; an end edge at
offset `step * i` is recorded exactly when that average is `< neg_trig_sum`
and the detector is triggered, and then the detector becomes untriggered.
The hypothesis `neg ≤ trig` is the asymmetric hysteresis band of the
configuration (defaults 0.07 < 0.25).  The final conjunct identifies the
buffer feeding the average with the trailing at-most-`num_steps`
probabilities of the input sequence. -/
theorem C1_batch_edge_rules (trig neg : ℚ) (nS st : ℕ) (h : neg ≤ trig) :
    (∀ (s : BatchState) (i : ℕ) (p : ℚ),
      (detectStep trig neg nS st s i p).edges = s.edges
        ++ (if trig ≤ trailingAvg nS s.buffer p ∧ s.triggered = false
            then [Edge.start ((st * (i - nS) : ℕ) : ℤ)] else [])
        ++ (if trailingAvg nS s.buffer p < neg ∧ s.triggered = true
            then [Edge.stop ((st * i : ℕ) : ℤ)] else [])
      ∧ (detectStep trig neg nS st s i p).triggered =
          (if trailingAvg nS s.buffer p < neg ∧ s.triggered = true then false
           else if trig ≤ trailingAvg nS s.buffer p ∧ s.triggered = false then true
           else s.triggered))
    ∧ ∀ probs : List ℚ,
        (getSpeechLoop trig neg nS st probs).buffer = probs.drop (probs.length - nS) := by
  refine ⟨fun s i p => ?_, getSpeechLoop_buffer trig neg nS st⟩
  have hiff : (trailingAvg nS s.buffer p < neg ∧
      (s.triggered = true ∨ (trig ≤ trailingAvg nS s.buffer p ∧ s.triggered = false)))
      ↔ (trailingAvg nS s.buffer p < neg ∧ s.triggered = true) := by
    constructor
    · rintro ⟨hlt, h' | ⟨hle, _⟩⟩
      · exact ⟨hlt, h'⟩
      · exact absurd hlt (not_lt.2 (le_trans h hle))
    · rintro ⟨hlt, ht⟩
      exact ⟨hlt, Or.inl ht⟩
  constructor
  · rw [detectStep_edges]
    simp only [hiff]
  · rw [detectStep_triggered]
    simp only [hiff]

/-- Witness for C1 at a concrete input: the default configuration, the initial
state, index 0 and probability 1 record a start edge at offset 0 and trigger
the detector. -/
theorem C1_batch_edge_rules_witness :
    (detectStep (1/4) (7/100) 8 500 initBatch 0 1).edges = initBatch.edges
        ++ (if (1/4 : ℚ) ≤ trailingAvg 8 initBatch.buffer 1 ∧ initBatch.triggered = false
            then [Edge.start ((500 * (0 - 8) : ℕ) : ℤ)] else [])
        ++ (if trailingAvg 8 initBatch.buffer 1 < (7/100 : ℚ) ∧ initBatch.triggered = true
            then [Edge.stop ((500 * 0 : ℕ) : ℤ)] else [])
      ∧ (detectStep (1/4) (7/100) 8 500 initBatch 0 1).triggered =
          (if trailingAvg 8 initBatch.buffer 1 < (7/100 : ℚ) ∧ initBatch.triggered = true
           then false
           else if (1/4 : ℚ) ≤ trailingAvg 8 initBatch.buffer 1 ∧ initBatch.triggered = false
           then true
           else initBatch.triggered) :=
  (C1_batch_edge_rules (1/4) (7/100) 8 500 (by norm_num)).1 initBatch 0 1


/-! ### Claims C4 and C5 -/

/-- C4: in the batch loop, a segment closed by an end edge is appended to the
returned list exactly when `end - start > 10000` samples (first conjunct: the
general per-step characterization of the `speeches` list).  In particular,
with the default configuration a closed segment of length exactly 10000 is
dropped (second/third conjuncts: the detector records edges `start 0` /
`end 10000`, yet returns no segment), while with step 10001 a closed segment
of length 10001 is retained (fourth conjunct). -/
theorem C4_min_length_filter :
    (∀ (trig neg : ℚ) (nS st : ℕ) (s : BatchState) (i : ℕ) (p : ℚ),
      (detectStep trig neg nS st s i p).speeches = s.speeches
        ++ (if (trailingAvg nS s.buffer p < neg ∧
                (s.triggered = true ∨ (trig ≤ trailingAvg nS s.buffer p ∧ s.triggered = false)))
              ∧ 10000 < st * i -
                (if trig ≤ trailingAvg nS s.buffer p ∧ s.triggered = false
                 then st * (i - nS) else s.current.getD 0)
            then [⟨(if trig ≤ trailingAvg nS s.buffer p ∧ s.triggered = false
                    then st * (i - nS) else s.current.getD 0), st * i⟩]
            else []))
    ∧ get_speech_ts ([1] ++ List.replicate 12 (56/100) ++ List.replicate 8 0) 12000
        (1/4) (7/100) 8 500 = []
    ∧ (getSpeechLoop (1/4) (7/100) 8 500
        ([1] ++ List.replicate 12 (56/100) ++ List.replicate 8 0)).edges
        = [Edge.start 0, Edge.stop 10000]
    ∧ get_speech_ts [1, -1] 90000 (1/4) (7/100) 8 10001 = [⟨0, 10001⟩] :=
  ⟨detectStep_speeches, by decide, by decide, by decide⟩

/-- C5: if the probability stream ends while the detector is still triggered,
`get_speech_ts` appends a final segment ending at `len(wav)` unconditionally —
no 10000-sample minimum-length filter is applied to it. -/
theorem C5_unterminated_flush (trig neg : ℚ) (nS st : ℕ) (probs : List ℚ) (wavLen : ℕ)
    (h : (getSpeechLoop trig neg nS st probs).triggered = true) :
    get_speech_ts probs wavLen trig neg nS st
      = (getSpeechLoop trig neg nS st probs).speeches
        ++ [⟨(getSpeechLoop trig neg nS st probs).current.getD 0, wavLen⟩] := by
  have hinv := (batchInv_loop trig neg nS st probs).1
  cases hc : (getSpeechLoop trig neg nS st probs).current with
  | none =>
    rw [h, hc] at hinv
    simp at hinv
  | some s0 =>
    simp only [get_speech_ts, getSpeechFinal, hc, Option.getD_some]

/-- Witness for C5: a single high probability triggers the detector, the
stream ends, and the 300-sample segment is retained despite being far below
the 10000-sample filter. -/
theorem C5_unterminated_flush_witness :
    get_speech_ts [1] 300 (1/4) (7/100) 8 500
      = (getSpeechLoop (1/4) (7/100) 8 500 [1]).speeches
        ++ [⟨(getSpeechLoop (1/4) (7/100) 8 500 [1]).current.getD 0, 300⟩] :=
  C5_unterminated_flush (1/4) (7/100) 8 500 [1] 300 (by decide)


/-! ### Streaming hysteresis lemmas (`VADiterator.state`) -/

theorem vadStateStep_edges (it : VADiterator) (d : List (ℤ × String)) (i : ℕ) (p : ℚ) :
    (vadStateStep it d i p).1.edges = it.edges
      ++ (if it.trig_sum ≤ trailingAvg it.num_steps it.buffer p ∧ it.triggered = false
          then [Edge.start (vadOff it i)] else [])
      ++ (if trailingAvg it.num_steps it.buffer p < it.neg_trig_sum ∧
            (it.triggered = true ∨
              (it.trig_sum ≤ trailingAvg it.num_steps it.buffer p ∧ it.triggered = false))
          then [Edge.stop (vadOff it i)] else []) := by
  simp only [vadStateStep, trailingAvg, vadOff]
  by_cases ht : it.triggered = true <;>
    by_cases hsc : it.trig_sum ≤
        (pushMax it.num_steps it.buffer p).sum / ((pushMax it.num_steps it.buffer p).length : ℚ) <;>
      by_cases hav : (pushMax it.num_steps it.buffer p).sum /
          ((pushMax it.num_steps it.buffer p).length : ℚ) < it.neg_trig_sum <;>
        simp [ht, hsc, hav, Bool.not_eq_true, List.append_assoc]

theorem vadStateStep_triggered (it : VADiterator) (d : List (ℤ × String)) (i : ℕ) (p : ℚ) :
    (vadStateStep it d i p).1.triggered =
      (if trailingAvg it.num_steps it.buffer p < it.neg_trig_sum ∧
            (it.triggered = true ∨
              (it.trig_sum ≤ trailingAvg it.num_steps it.buffer p ∧ it.triggered = false))
        then false
        else if it.trig_sum ≤ trailingAvg it.num_steps it.buffer p ∧ it.triggered = false
        then true
        else it.triggered) := by
  simp only [vadStateStep, trailingAvg]
  by_cases ht : it.triggered = true <;>
    by_cases hsc : it.trig_sum ≤
        (pushMax it.num_steps it.buffer p).sum / ((pushMax it.num_steps it.buffer p).length : ℚ) <;>
      by_cases hav : (pushMax it.num_steps it.buffer p).sum /
          ((pushMax it.num_steps it.buffer p).length : ℚ) < it.neg_trig_sum <;>
        simp [ht, hsc, hav, Bool.not_eq_true]

theorem vadStateStep_inv (it : VADiterator) (d : List (ℤ × String)) (i : ℕ) (p : ℚ)
    (h : VADInv it) : VADInv (vadStateStep it d i p).1 := by
  rw [VADInv] at h ⊢
  have he := vadStateStep_edges it d i p
  have htr := vadStateStep_triggered it d i p
  by_cases hec : trailingAvg it.num_steps it.buffer p < it.neg_trig_sum ∧
      (it.triggered = true ∨
        (it.trig_sum ≤ trailingAvg it.num_steps it.buffer p ∧ it.triggered = false))
  · rw [if_pos hec] at he htr
    by_cases hsc : it.trig_sum ≤ trailingAvg it.num_steps it.buffer p ∧ it.triggered = false
    · rw [if_pos hsc] at he
      rw [he, htr]
      exact edgeInv_push_stop _ _ (edgeInv_push_start _ _ (hsc.2 ▸ h))
    · rw [if_neg hsc, List.append_nil] at he
      have h2 : it.triggered = true := hec.2.resolve_right hsc
      rw [he, htr]
      exact edgeInv_push_stop _ _ (h2 ▸ h)
  · rw [if_neg hec] at he htr
    rw [List.append_nil] at he
    by_cases hsc : it.trig_sum ≤ trailingAvg it.num_steps it.buffer p ∧ it.triggered = false
    · rw [if_pos hsc] at he htr
      rw [he, htr]
      exact edgeInv_push_start _ _ (hsc.2 ▸ h)
    · rw [if_neg hsc] at he htr
      rw [List.append_nil] at he
      rw [he, htr]
      exact h

theorem vadStateFold_inv (l : List (ℕ × ℚ)) :
    ∀ (acc : VADiterator × List (ℤ × String)), VADInv acc.1 →
      VADInv (l.foldl (fun acc ip => vadStateStep acc.1 acc.2 ip.1 ip.2) acc).1 := by
  induction l with
  | nil => exact fun acc h => h
  | cons ip l ih =>
    intro acc h
    exact ih _ (vadStateStep_inv acc.1 acc.2 ip.1 ip.2 h)

theorem stateCore_kindsAlt (it : VADiterator) (m : List ℚ) (h : VADInv it) :
    kindsAlt (it.stateCore m).1.edges := by
  have hf := vadStateFold_inv m.enum (it, []) h
  rw [VADiterator.stateCore]
  by_cases hc : (m.enum.foldl
      (fun acc ip => vadStateStep acc.1 acc.2 ip.1 ip.2) (it, ([] : List (ℤ × String)))).1.triggered
      && (m.enum.foldl (fun acc ip => vadStateStep acc.1 acc.2 ip.1 ip.2)
        (it, ([] : List (ℤ × String)))).1.last
  · simp only [hc, if_true]
    rw [Bool.and_eq_true] at hc
    exact (edgeInv_push_stop _ _ (hc.1 ▸ hf)).1
  · simp only [hc, if_false]
    exact hf.1

theorem state_inv (it : VADiterator) (m : List ℚ) (h : VADInv it) :
    VADInv (it.state m).1 := by
  rw [VADiterator.state]
  have hf := vadStateFold_inv m.enum (it, []) h
  by_cases hl : (it.stateCore m).1.last
  · simp only [hl, if_true]
    rw [VADInv, VADiterator.refresh]
    exact ⟨kindsAlt_nil, rfl⟩
  · simp only [hl, if_false]
    rw [VADiterator.stateCore] at hl ⊢
    by_cases hc : (m.enum.foldl
        (fun acc ip => vadStateStep acc.1 acc.2 ip.1 ip.2) (it, ([] : List (ℤ × String)))).1.triggered
        && (m.enum.foldl (fun acc ip => vadStateStep acc.1 acc.2 ip.1 ip.2)
          (it, ([] : List (ℤ × String)))).1.last
    · simp only [hc, if_true] at hl ⊢
      rw [Bool.and_eq_true] at hc
      exact absurd hc.2 hl
    · simp only [hc, if_false] at hl ⊢
      exact hf


/-! ### Claim C6 -/

theorem kindsAlt_getSpeechFinal (trig neg : ℚ) (nS st : ℕ) (probs : List ℚ) (wavLen : ℕ) :
    kindsAlt (getSpeechFinal trig neg nS st probs wavLen).edges := by
  obtain ⟨hcur, hinv⟩ := batchInv_loop trig neg nS st probs
  rw [getSpeechFinal]
  cases hc : (getSpeechLoop trig neg nS st probs).current with
  | none =>
    exact hinv.1
  | some s0 =>
    have ht : (getSpeechLoop trig neg nS st probs).triggered = true := by
      rw [hcur, hc]
      rfl
    exact (edgeInv_push_stop _ _ (ht ▸ hinv)).1

/-- C6: the edge sequence emitted by the hysteresis detector strictly
alternates (never two starts without an intervening end and vice versa), in
batch mode — the whole trace of `get_speech_ts` including the end-of-signal
flush — and in streaming mode — `VADiterator.state` preserves the detector
invariant from any state satisfying it, and the fresh iterator satisfies it,
so every reachable per-stream trace alternates. -/
theorem C6_strict_alternation :
    (∀ (trig neg : ℚ) (nS st : ℕ) (probs : List ℚ) (wavLen : ℕ),
      kindsAlt (getSpeechFinal trig neg nS st probs wavLen).edges)
    ∧ (∀ (trig neg : ℚ) (nS nSamp : ℕ), VADInv (VADiterator.init trig neg nS nSamp))
    ∧ ∀ (it : VADiterator) (m : List ℚ), VADInv it →
        kindsAlt (it.stateCore m).1.edges ∧ VADInv (it.state m).1 :=
  ⟨kindsAlt_getSpeechFinal,
   fun _ _ _ _ => ⟨kindsAlt_nil, rfl⟩,
   fun it m h => ⟨stateCore_kindsAlt it m h, state_inv it m h⟩⟩

/-- Witness for C6 at a concrete streaming input: one `state` call of a fresh
default iterator on probabilities `[1, 0]` produces an alternating trace and
preserves the invariant. -/
theorem C6_strict_alternation_witness :
    kindsAlt ((VADiterator.init (26/100) (7/100) 8 4).stateCore [1, 0]).1.edges
      ∧ VADInv ((VADiterator.init (26/100) (7/100) 8 4).state [1, 0]).1 :=
  C6_strict_alternation.2.2 (VADiterator.init (26/100) (7/100) 8 4) [1, 0] (by decide)


/-! ### Claim C2 -/

theorem prepare_batch_full (it : VADiterator) (curr : List ℚ)
    (hcurr : curr.length = it.num_samples) :
    it.prepare_batch curr none =
      ({ it with num_frames := it.num_frames + curr.length, prev := curr },
       (pyRange it.step (it.num_samples + 1) it.step).map
         (fun i => ((it.prev ++ curr).drop i).take it.num_samples)) := by
  rw [VADiterator.prepare_batch]
  have hlt : ¬(curr.length < it.num_samples) := by
    rw [hcurr]
    exact lt_irrefl _
  simp [hlt]

theorem pyRange_steps (stp nS : ℕ) (h : 0 < stp) :
    pyRange stp (stp * nS + 1) stp = List.range' stp nS stp := by
  rw [pyRange, if_pos h]
  congr 1
  rcases Nat.eq_zero_or_pos nS with h0 | h0
  · subst h0
    have h1 : stp * 0 + 1 - stp + stp - 1 = stp - 1 := by omega
    rw [h1]
    exact Nat.div_eq_of_lt (by omega)
  · have h1 : stp * nS + 1 - stp + stp - 1 = stp * nS := by
      have h2 : stp ≤ stp * nS := Nat.le_mul_of_pos_right stp h0
      omega
    rw [h1]
    exact Nat.mul_div_cancel_left nS h

/-- C2: `prepare_batch` with a full-length chunk produces exactly `num_steps`
sub-windows, each of length `num_samples`, sliced from `prev ++ curr` at
offsets `step, 2*step, …, num_samples`; afterwards `prev = curr`; the last
sub-window is `curr` itself, so its final `step` samples equal `curr`'s last
`step` samples.  The hypotheses are the constructor's configuration contract
(`step > 0`, `num_samples = step * num_steps`) and the stream invariant that
`prev` holds one full window. -/
theorem C2_overlap_buffer (it : VADiterator) (curr : List ℚ)
    (hprev : it.prev.length = it.num_samples)
    (hcurr : curr.length = it.num_samples)
    (hstep : 0 < it.step)
    (hns : 0 < it.num_steps)
    (hws : it.num_samples = it.step * it.num_steps) :
    (it.prepare_batch curr none).2.length = it.num_steps
    ∧ (∀ k, k < it.num_steps →
        (it.prepare_batch curr none).2[k]? =
          some (((it.prev ++ curr).drop (it.step * (k + 1))).take it.num_samples))
    ∧ (∀ w ∈ (it.prepare_batch curr none).2, w.length = it.num_samples)
    ∧ (it.prepare_batch curr none).1.prev = curr
    ∧ (it.prepare_batch curr none).2.getLast? = some curr
    ∧ (((it.prepare_batch curr none).2.getLast?).getD []).drop (it.num_samples - it.step)
        = curr.drop (it.num_samples - it.step) := by
  have hpb := prepare_batch_full it curr hcurr
  have hrange : pyRange it.step (it.num_samples + 1) it.step
      = List.range' it.step it.num_steps it.step := by
    rw [hws]
    exact pyRange_steps it.step it.num_steps hstep
  have hsnd : (it.prepare_batch curr none).2
      = (List.range' it.step it.num_steps it.step).map
          (fun i => ((it.prev ++ curr).drop i).take it.num_samples) := by
    rw [hpb, ← hrange]
  have hstacked : (it.prev ++ curr).length = it.num_samples + it.num_samples := by
    rw [List.length_append, hprev, hcurr]
  have hlen : (it.prepare_batch curr none).2.length = it.num_steps := by
    rw [hsnd, List.length_map, List.length_range']
  have hidx : ∀ k, k < it.num_steps →
      (it.prepare_batch curr none).2[k]? =
        some (((it.prev ++ curr).drop (it.step * (k + 1))).take it.num_samples) := by
    intro k hk
    rw [hsnd, List.getElem?_map, List.getElem?_range' _ _ hk]
    simp only [Option.map_some']
    congr 2
    ring_nf
  have hlast : (it.prepare_batch curr none).2.getLast? = some curr := by
    rw [List.getLast?_eq_getElem?, hlen, hidx (it.num_steps - 1) (by omega)]
    have hoff : it.step * (it.num_steps - 1 + 1) = it.num_samples := by
      rw [hws]
      congr 1
      omega
    rw [hoff]
    have hdrop : (it.prev ++ curr).drop it.num_samples = curr := by
      rw [← hprev]
      exact List.drop_left it.prev curr
    rw [hdrop, ← hcurr, List.take_length]
  refine ⟨hlen, hidx, ?_, by rw [hpb], hlast, by rw [hlast]; rfl⟩
  intro w hw
  rw [hsnd] at hw
  obtain ⟨o, ho, rfl⟩ := List.mem_map.1 hw
  obtain ⟨j, hj, rfl⟩ := List.mem_range'.1 ho
  have hole : it.step + it.step * j ≤ it.num_samples := by
    rw [hws]
    have : j + 1 ≤ it.num_steps := hj
    calc it.step + it.step * j = it.step * (j + 1) := by ring
    _ ≤ it.step * it.num_steps := Nat.mul_le_mul_left it.step this
  simp only [List.length_take, List.length_drop, hstacked]
  omega

/-- Witness for C2: a tiny concrete configuration (2 steps of width 2, window
4) applied to a fresh iterator and the chunk `[1,2,3,4]`. -/
theorem C2_overlap_buffer_witness :
    ((VADiterator.init (26/100) (7/100) 2 4).prepare_batch [1,2,3,4] none).2.length = 2
    ∧ ((VADiterator.init (26/100) (7/100) 2 4).prepare_batch [1,2,3,4] none).1.prev
        = [1,2,3,4]
    ∧ ((VADiterator.init (26/100) (7/100) 2 4).prepare_batch [1,2,3,4] none).2.getLast?
        = some [1,2,3,4] :=
  have h := C2_overlap_buffer (VADiterator.init (26/100) (7/100) 2 4) [1,2,3,4]
    (by decide) (by decide) (by decide) (by decide) (by decide)
  ⟨h.1, h.2.2.2.1, h.2.2.2.2.1⟩


/-! ### Scheduler lemmas (`stream_imitator`) -/

theorem realCount_cons (s : SlotIter) (rest : List SlotIter) :
    realCount (s :: rest) = (if s.isReal then 1 else 0) + realCount rest := by
  cases h : s.isReal <;> simp [realCount, List.filter_cons, h] <;> omega

theorem queueChunks_cons (ns : ℕ) (a : String × List ℚ) (qrest : List (String × List ℚ)) :
    queueChunks ns (a :: qrest) = (wavChunks ns a.1 a.2).length + queueChunks ns qrest := by
  simp [queueChunks]

theorem realCount_map_real (f : String × List ℚ → List (List ℚ × String))
    (l : List (String × List ℚ)) :
    realCount (l.map (fun a => SlotIter.real (f a))) = l.length := by
  induction l with
  | nil => rfl
  | cons a l ih => simp [realCount_cons, SlotIter.isReal, ih, Nat.add_comm]


/-- Effect of one completed round: the work measure does not increase, it
strictly decreases when a live slot exists, the live count does not increase,
and the number of deaths in the round stays below the entry counter `good`
(otherwise the round would have been aborted mid-way, as the source's
`return` does). -/
theorem roundGo_spec (ns : ℕ) :
    ∀ (slots : List SlotIter) (q : List (String × List ℚ)) (good : ℕ)
      (vs : List (List ℚ × String)) (slots' : List SlotIter) (q' : List (String × List ℚ)),
      roundGo ns q slots good = some (vs, slots', q') →
      ((slots'.map slotChunks).sum + queueChunks ns q' + realCount slots'
          ≤ (slots.map slotChunks).sum + queueChunks ns q + realCount slots)
      ∧ (slots.any SlotIter.isReal = true →
          (slots'.map slotChunks).sum + queueChunks ns q' + realCount slots'
            < (slots.map slotChunks).sum + queueChunks ns q + realCount slots)
      ∧ realCount slots' ≤ realCount slots
      ∧ (realCount slots' < realCount slots →
          realCount slots - realCount slots' < good) := by
  intro slots
  induction slots with
  | nil =>
    intro q good vs slots' q' h
    simp only [roundGo, Option.some.injEq, Prod.mk.injEq] at h
    obtain ⟨rfl, rfl, rfl⟩ := h
    simp
  | cons s rest ih =>
    intro q good vs slots' q' h
    cases s with
    | filler =>
      simp only [roundGo, processSlot, cond_false] at h
      cases hr : roundGo ns q rest good with
      | none => rw [hr] at h; exact absurd h (by simp)
      | some r =>
        obtain ⟨vs1, slots1, q2⟩ := r
        rw [hr] at h
        simp only [Option.some.injEq, Prod.mk.injEq] at h
        obtain ⟨rfl, rfl, rfl⟩ := h
        have hrec := ih q good vs1 slots1 q2 hr
        simp only [List.map_cons, List.sum_cons, realCount_cons, slotChunks,
          SlotIter.isReal, List.any_cons, if_false, Bool.false_or]
        refine ⟨by omega, fun ha => by have := hrec.2.1 ha; omega, by omega,
          fun hlt => by have := hrec.2.2.2 (by omega); omega⟩
    | real cs =>
      cases cs with
      | cons c cs2 =>
        simp only [roundGo, processSlot, cond_false] at h
        cases hr : roundGo ns q rest good with
        | none => rw [hr] at h; exact absurd h (by simp)
        | some r =>
          obtain ⟨vs1, slots1, q2⟩ := r
          rw [hr] at h
          simp only [Option.some.injEq, Prod.mk.injEq] at h
          obtain ⟨rfl, rfl, rfl⟩ := h
          have hrec := ih q good vs1 slots1 q2 hr
          simp only [List.map_cons, List.sum_cons, realCount_cons, slotChunks,
            SlotIter.isReal, List.any_cons, if_true, List.length_cons]
          refine ⟨by omega, fun _ => by omega, by omega,
            fun hlt => by have := hrec.2.2.2 (by omega); omega⟩
      | nil =>
        cases q with
        | nil =>
          simp only [roundGo, processSlot, cond_true] at h
          by_cases hg : good - 1 = 0
          · rw [if_pos hg] at h
            exact absurd h (by simp)
          · rw [if_neg hg] at h
            cases hr : roundGo ns ([] : List (String × List ℚ)) rest (good - 1) with
            | none => rw [hr] at h; exact absurd h (by simp)
            | some r =>
              obtain ⟨vs1, slots1, q2⟩ := r
              rw [hr] at h
              simp only [Option.some.injEq, Prod.mk.injEq] at h
              obtain ⟨rfl, rfl, rfl⟩ := h
              have hrec := ih [] (good - 1) vs1 slots1 q2 hr
              simp only [List.map_cons, List.sum_cons, realCount_cons, slotChunks,
                SlotIter.isReal, List.any_cons, if_true, if_false, List.length_nil,
                show (false = true) = False from by simp]
              refine ⟨by omega, fun _ => by omega, by omega, fun hlt => ?_⟩
              rcases Nat.lt_or_ge (realCount slots1) (realCount rest) with h2 | h2
              · have := hrec.2.2.2 h2
                omega
              · omega
        | cons a qrest =>
          cases hw : wavChunks ns a.1 a.2 with
          | nil =>
            simp only [roundGo, processSlot, hw, cond_true] at h
            by_cases hg : good - 1 = 0
            · rw [if_pos hg] at h
              exact absurd h (by simp)
            · rw [if_neg hg] at h
              cases hr : roundGo ns qrest rest (good - 1) with
              | none => rw [hr] at h; exact absurd h (by simp)
              | some r =>
                obtain ⟨vs1, slots1, q2⟩ := r
                rw [hr] at h
                simp only [Option.some.injEq, Prod.mk.injEq] at h
                obtain ⟨rfl, rfl, rfl⟩ := h
                have hrec := ih qrest (good - 1) vs1 slots1 q2 hr
                simp only [List.map_cons, List.sum_cons, realCount_cons, slotChunks,
                  SlotIter.isReal, List.any_cons, if_true, queueChunks_cons, hw,
                  List.length_nil, if_false, show (false = true) = False from by simp]
                refine ⟨by omega, fun _ => by omega, by omega, fun hlt => ?_⟩
                rcases Nat.lt_or_ge (realCount slots1) (realCount rest) with h2 | h2
                · have := hrec.2.2.2 h2
                  omega
                · omega
          | cons c cs2 =>
            simp only [roundGo, processSlot, hw, cond_false] at h
            cases hr : roundGo ns qrest rest good with
            | none => rw [hr] at h; exact absurd h (by simp)
            | some r =>
              obtain ⟨vs1, slots1, q2⟩ := r
              rw [hr] at h
              simp only [Option.some.injEq, Prod.mk.injEq] at h
              obtain ⟨rfl, rfl, rfl⟩ := h
              have hrec := ih qrest good vs1 slots1 q2 hr
              have hq : queueChunks ns (a :: qrest)
                  = (cs2.length + 1) + queueChunks ns qrest := by
                rw [queueChunks_cons, hw]
                simp
              simp only [List.map_cons, List.sum_cons, realCount_cons, slotChunks,
                SlotIter.isReal, List.any_cons, if_true, hq, List.length_nil,
                List.length_cons]
              refine ⟨by omega, fun _ => by omega, by omega,
                fun hlt => by have := hrec.2.2.2 (by omega); omega⟩


theorem realCount_pos_any (slots : List SlotIter) (h : 1 ≤ realCount slots) :
    slots.any SlotIter.isReal = true := by
  induction slots with
  | nil => simp [realCount] at h
  | cons s rest ih =>
    rw [realCount_cons] at h
    rw [List.any_cons]
    cases hs : s.isReal
    · rw [hs] at h
      simp only [if_false, Nat.zero_add, show (false = true) = False from by simp] at h
      simp only [hs, Bool.false_or]
      exact ih h
    · simp [hs]

theorem runRoundsFuel_length (ns : ℕ) :
    ∀ (fuel : ℕ) (q : List (String × List ℚ)) (slots : List SlotIter),
      (runRoundsFuel ns fuel q slots).length ≤ fuel := by
  intro fuel
  induction fuel with
  | zero =>
    intro q slots
    simp [runRoundsFuel]
  | succ f ih =>
    intro q slots
    rw [runRoundsFuel]
    cases hr : roundGo ns q slots (realCount slots) with
    | none => simp
    | some r =>
      obtain ⟨vs, slots', q'⟩ := r
      simp only [List.length_cons]
      exact Nat.succ_le_succ (ih q' slots')

/-- Once the budget covers the work measure, the yielded rounds no longer
depend on it: the `while True` loop reaches its `return` within the measure. -/
theorem runRoundsFuel_stable (ns : ℕ) :
    ∀ (n : ℕ) (q : List (String × List ℚ)) (slots : List SlotIter) (fuel : ℕ),
      schedMeasure ns q slots ≤ n → 1 ≤ realCount slots → n ≤ fuel →
      runRoundsFuel ns fuel q slots = runRoundsFuel ns n q slots := by
  intro n
  induction n with
  | zero =>
    intro q slots fuel hm hR hf
    rw [schedMeasure] at hm
    omega
  | succ n ih =>
    intro q slots fuel hm hR hf
    obtain ⟨f, rfl⟩ : ∃ f, fuel = f + 1 := ⟨fuel - 1, by omega⟩
    rw [runRoundsFuel, runRoundsFuel]
    cases hr : roundGo ns q slots (realCount slots) with
    | none => rfl
    | some r =>
      obtain ⟨vs, slots', q'⟩ := r
      have hs := roundGo_spec ns slots q (realCount slots) vs slots' q' hr
      have hany := realCount_pos_any slots hR
      have hlt := hs.2.1 hany
      have hR' : 1 ≤ realCount slots' := by
        rcases Nat.lt_or_ge (realCount slots') (realCount slots) with h2 | h2
        · have := hs.2.2.2 h2
          omega
        · omega
      rw [schedMeasure] at hm
      change vs :: runRoundsFuel ns f q' slots' = vs :: runRoundsFuel ns n q' slots'
      congr 1
      exact ih q' slots' f (by rw [schedMeasure]; omega) hR' (by omega)

/-- C3: given at least `audios_in_stream` queued signals the initial loading
succeeds; the round loop terminates — with any budget at least the work
measure it produces the same finite list of rounds — and yields at most
work-measure many rounds; a slot with no remaining real audio is fed the
all-zero window tagged `'junk'` and switches to filler mode (both in filler
mode and at the death transition); every completed round leaves at least one
live slot (so no round is yielded once every slot is filler); and the round
in which the last live slot dies is abandoned: nothing further is yielded. -/
theorem C3_stream_imitator (ns : ℕ) (audios : List (String × List ℚ)) (K : ℕ)
    (hK : 1 ≤ K) (hlen : K ≤ audios.length) :
    (stream_imitator ns audios K).isSome
    ∧ (∀ fuel, schedMeasure ns (audios.drop K)
          ((audios.take K).map (fun a => SlotIter.real (wavChunks ns a.1 a.2))) ≤ fuel →
        runRoundsFuel ns fuel (audios.drop K)
            ((audios.take K).map (fun a => SlotIter.real (wavChunks ns a.1 a.2)))
          = (stream_imitator ns audios K).getD [])
    ∧ ((stream_imitator ns audios K).getD []).length
        ≤ schedMeasure ns (audios.drop K)
            ((audios.take K).map (fun a => SlotIter.real (wavChunks ns a.1 a.2)))
    ∧ (∀ q, processSlot ns q SlotIter.filler
        = ((List.replicate ns 0, "junk"), SlotIter.filler, q, false))
    ∧ processSlot ns [] (SlotIter.real [])
        = ((List.replicate ns 0, "junk"), SlotIter.filler, [], true)
    ∧ (∀ (q : List (String × List ℚ)) (slots : List SlotIter)
        (vs : List (List ℚ × String)) (slots' : List SlotIter)
        (q' : List (String × List ℚ)),
        1 ≤ realCount slots →
        roundGo ns q slots (realCount slots) = some (vs, slots', q') →
        1 ≤ realCount slots')
    ∧ (∀ (fuel : ℕ) (q : List (String × List ℚ)) (slots : List SlotIter),
        roundGo ns q slots (realCount slots) = none →
        runRoundsFuel ns (fuel + 1) q slots = []) := by
  have hnot : ¬(audios.length < K) := by omega
  have hRinit : realCount
      ((audios.take K).map (fun a => SlotIter.real (wavChunks ns a.1 a.2))) = K := by
    rw [realCount_map_real, List.length_take]
    omega
  refine ⟨?_, ?_, ?_, fun q => rfl, rfl, ?_, ?_⟩
  · rw [stream_imitator, if_neg hnot]
    rfl
  · intro fuel hf
    rw [stream_imitator, if_neg hnot, Option.getD_some, runRounds]
    rw [runRoundsFuel_stable ns (schedMeasure ns (audios.drop K)
      ((audios.take K).map (fun a => SlotIter.real (wavChunks ns a.1 a.2))))
      _ _ fuel (le_refl _) (by omega) hf]
  · rw [stream_imitator, if_neg hnot, Option.getD_some, runRounds]
    exact runRoundsFuel_length ns _ _ _
  · intro q slots vs slots' q' hR hr
    have hs := roundGo_spec ns slots q (realCount slots) vs slots' q' hr
    rcases Nat.lt_or_ge (realCount slots') (realCount slots) with h2 | h2
    · have := hs.2.2.2 h2
      omega
    · omega
  · intro fuel q slots h
    rw [runRoundsFuel, h]

/-- Witness for C3: the spec's example — two slots, one real four-sample
signal and one empty signal. -/
theorem C3_stream_imitator_witness :
    (stream_imitator 2 [("a", ([1,2,3,4] : List ℚ)), ("b", [])] 2).isSome
    ∧ ((stream_imitator 2 [("a", ([1,2,3,4] : List ℚ)), ("b", [])] 2).getD []).length
        ≤ schedMeasure 2 ([("a", ([1,2,3,4] : List ℚ)), ("b", [])].drop 2)
            (([("a", ([1,2,3,4] : List ℚ)), ("b", [])].take 2).map
              (fun a => SlotIter.real (wavChunks 2 a.1 a.2))) :=
  have h := C3_stream_imitator 2 [("a", ([1,2,3,4] : List ℚ)), ("b", [])] 2
    (by decide) (by decide)
  ⟨h.1, h.2.2.1⟩


/-! ### Claim C7 -/

/-- Counterexample to C8 as stated: for the signal `[1,2,3,4]` and the single
segment `[1,2)` (sorted, non-overlapping), keep yields `[2]` and drop yields
`[1]` — their total length is 2, not 4: `drop_chunks` never emits the span
after the last segment's end, so keep ++ drop does not cover the signal. -/
theorem C8_counterexample :
    ((collect_chunks [⟨1,2⟩] [1,2,3,4]).getD []).length
      + ((drop_chunks [⟨1,2⟩] [1,2,3,4]).getD []).length
      ≠ ([1,2,3,4] : List ℚ).length := by decide

theorem drop_chunks_go_length (wav : List ℚ) :
    ∀ (tss : List Segment) (cur : ℕ), (drop_chunks_go wav cur tss).length = tss.length := by
  intro tss
  induction tss with
  | nil => intro cur; rfl
  | cons i rest ih =>
    intro cur
    simp [drop_chunks_go, ih]

theorem lastStop_cons (cur : ℕ) (i : Segment) (rest : List Segment) :
    lastStop cur (i :: rest) = lastStop i.stop rest := by
  induction rest generalizing i cur with
  | nil => rfl
  | cons j rs ih =>
    have h1 : lastStop cur (i :: j :: rs) = lastStop cur (j :: rs) := by
      rw [lastStop, lastStop, List.getLast?_cons_cons]
    rw [h1, ih, ih]

theorem lastStop_bounds (len : ℕ) :
    ∀ (tss : List Segment) (cur : ℕ), ValidSegs len cur tss →
      cur ≤ lastStop cur tss ∧ (tss ≠ [] → lastStop cur tss ≤ len) := by
  intro tss
  induction tss with
  | nil =>
    intro cur _
    exact ⟨le_refl _, fun h => absurd rfl h⟩
  | cons i rest ih =>
    intro cur h
    obtain ⟨h1, h2, h3, h4⟩ := h
    have hr := ih i.stop h4
    rw [lastStop_cons]
    cases rest with
    | nil =>
      refine ⟨?_, fun _ => ?_⟩
      · rw [lastStop]
        simp only [List.getLast?_nil, Option.map_none', Option.getD_none]
        omega
      · rw [lastStop]
        simp only [List.getLast?_nil, Option.map_none', Option.getD_none]
        omega
    | cons j rs =>
      exact ⟨le_trans (by omega : cur ≤ i.stop) hr.1, fun _ => hr.2 (by simp)⟩

theorem keep_drop_lengths (wav : List ℚ) :
    ∀ (tss : List Segment) (cur : ℕ), ValidSegs wav.length cur tss →
      ((tss.map (fun i => (wav.drop i.start).take (i.stop - i.start))).map List.length).sum
        + ((drop_chunks_go wav cur tss).map List.length).sum
      = lastStop cur tss - cur := by
  intro tss
  induction tss with
  | nil =>
    intro cur _
    simp [drop_chunks_go, lastStop]
  | cons i rest ih =>
    intro cur h
    obtain ⟨h1, h2, h3, h4⟩ := h
    have hslice : ((wav.drop i.start).take (i.stop - i.start)).length = i.stop - i.start := by
      simp only [List.length_take, List.length_drop]
      omega
    have hdrop : ((wav.drop cur).take (i.start - cur)).length = i.start - cur := by
      simp only [List.length_take, List.length_drop]
      omega
    have ihr := ih i.stop h4
    have hge := (lastStop_bounds wav.length rest i.stop h4).1
    rw [lastStop_cons]
    simp only [drop_chunks_go, List.map_cons, List.sum_cons, hslice, hdrop]
    omega

/-- C8 amended: for a sorted, pairwise non-overlapping segment list within the
signal, the total length of the keep output and the drop output equals the
last segment's `end` — not `len(wav)`: the span after the last segment's end
is dropped by neither-output, so keep ++ drop covers exactly the first
`lastStop` samples' worth of the signal. -/
theorem C8_amended_keep_drop (wav : List ℚ) (tss : List Segment)
    (hv : ValidSegs wav.length 0 tss) (hne : tss ≠ []) :
    ((collect_chunks tss wav).getD []).length + ((drop_chunks tss wav).getD []).length
      = lastStop 0 tss
    ∧ lastStop 0 tss ≤ wav.length := by
  have hmapne : (tss.map (fun i => (wav.drop i.start).take (i.stop - i.start))) ≠ [] := by
    simp [hne]
  have hgone : drop_chunks_go wav 0 tss ≠ [] := by
    have := drop_chunks_go_length wav tss 0
    intro hcon
    rw [hcon] at this
    cases tss with
    | nil => exact hne rfl
    | cons a b => simp at this
  have hc : collect_chunks tss wav
      = some (tss.map (fun i => (wav.drop i.start).take (i.stop - i.start))).flatten := by
    rw [collect_chunks, torch_cat, if_neg (by simpa [List.isEmpty_iff] using hmapne)]
  have hd : drop_chunks tss wav = some (drop_chunks_go wav 0 tss).flatten := by
    rw [drop_chunks, torch_cat, if_neg (by simpa [List.isEmpty_iff] using hgone)]
  have hlen := keep_drop_lengths wav tss 0 hv
  have hb := lastStop_bounds wav.length tss 0 hv
  constructor
  · rw [hc, hd, Option.getD_some, Option.getD_some, List.length_flatten, List.length_flatten]
    omega
  · exact hb.2 hne

/-- Witness for C8's amended statement: signal `[1,2,3,4]`, one segment
`[1,2)`; keep and drop lengths sum to 2, the last segment's end. -/
theorem C8_amended_keep_drop_witness :
    ((collect_chunks [⟨1,2⟩] [1,2,3,4]).getD []).length
        + ((drop_chunks [⟨1,2⟩] [1,2,3,4]).getD []).length
      = lastStop 0 [⟨1,2⟩]
    ∧ lastStop 0 [⟨1,2⟩] ≤ ([1,2,3,4] : List ℚ).length :=
  C8_amended_keep_drop [1,2,3,4] [⟨1,2⟩] (by decide) (by decide)


/-! ### Claims C9 and C10 -/

/-- C9: evaluation of `get_number_ts` at the failing input.  With one
number-positive prediction frame (stride 8, hop 160, 16 kHz), the region
start is the millisecond offset `int(8*160/16) = 80`; the claim (and the
spec's unit contract) requires the synthesized trailing end to be the
millisecond offset of the end of the signal, but the source computes
`int(len(wav)/(sample_rate/1000))` after `wav = torch.unsqueeze(wav, dim=0)`,
whose `len` is the leading tensor dimension `1` — so the returned end is
`int(1/16) = 0`, an end before its own start. -/
theorem C9_trailing_end_is_zero :
    get_number_ts [0, 1] 8 160 16000 = [⟨80, 0⟩]
    ∧ get_number_ts [1] 8 160 16000 = [⟨0, 0⟩] := by
  constructor <;> decide

/-- C10: with an empty segment list both chunk selectors fail — `torch.cat`
raises on zero chunks — rather than returning an empty signal (keep) or the
whole signal (drop); and a call succeeds exactly when the segment list is
non-empty. -/
theorem C10_empty_segments_raise (wav : List ℚ) :
    collect_chunks [] wav = none
    ∧ drop_chunks [] wav = none
    ∧ (∀ tss : List Segment, (collect_chunks tss wav).isSome ↔ tss ≠ [])
    ∧ (∀ tss : List Segment, (drop_chunks tss wav).isSome ↔ tss ≠ []) := by
  refine ⟨rfl, rfl, ?_, ?_⟩
  · intro tss
    cases tss with
    | nil => simp [collect_chunks, torch_cat]
    | cons i rest => simp [collect_chunks, torch_cat]
  · intro tss
    cases tss with
    | nil => simp [drop_chunks, torch_cat, drop_chunks_go]
    | cons i rest => simp [drop_chunks, torch_cat, drop_chunks_go]

end SileroVad
